import Mathlib

/-!
# Verification of the todo-app persistence abstraction

Shallow embedding of the dual-backend storage service of the todo
application: the durable key-value backend (`RedisService`, from
`redis-service.js`) and the volatile in-memory backend together with the
`TodoService` facade and the HTTP-handler layer that feeds them
(`server.js`).

Modelling conventions:
* ids (uuid strings in the source) are modelled as `Nat`; the uuid
  generator, whose contract is that every generated id is globally fresh,
  is modelled as a counter threaded through the system state;
* ISO-8601 timestamp strings are modelled as `Nat` (order-isomorphic:
  `new Date(b) - new Date(a)` comparisons become `Nat` comparisons);
* the durable store's per-item hash keeps `completed` as the string
  `"true"`/`"false"` exactly as `redis-service.js` stores it
  (`todo.completed.toString()`), parsed back with `=== 'true'`;
* a Redis hash field that was never written is an absent key, hence
  `Option` for `updatedAt` in the stored record.
-/

/-- An Item as returned by the service operations: `updatedAt` is
optional (`undefined` in the source when the field was never set). -/
structure Todo where
  id : Nat
  text : String
  completed : Bool
  createdAt : Nat
  updatedAt : Option Nat
deriving Repr, DecidableEq

/-- A partial update, as handed to `updateTodo(id, updates)`: a field
that is `none` models a JS field that is `undefined` (the source guards
each field with `!== undefined`). -/
structure Upd where
  text : Option String
  completed : Option Bool
deriving Repr, DecidableEq

/-- The `{total, completed, pending}` record returned by `getStats`. -/
structure Stats where
  total : Nat
  completed : Nat
  pending : Nat
deriving Repr, DecidableEq

/-- Stable insertion step for descending sort by `createdAt`: models one
comparison of the JS comparator `(a, b) => new Date(b.createdAt) - new
Date(a.createdAt)` (ties keep original order, as `Array.prototype.sort`
is stable). -/
def insertDesc (x : Todo) : List Todo → List Todo
  | [] => [x]
  | y :: ys => if y.createdAt ≤ x.createdAt then x :: y :: ys else y :: insertDesc x ys

/-- `todos.sort((a, b) => new Date(b.createdAt) - new Date(a.createdAt))`:
stable sort, newest `createdAt` first. -/
def sortByCreatedDesc : List Todo → List Todo
  | [] => []
  | x :: xs => insertDesc x (sortByCreatedDesc xs)

namespace RedisService

/-- The hash stored at key `todo:<id>` by `redis-service.js`: fields
`id`, `text`, `completed` (a string), `createdAt`, and — only after the
first update — `updatedAt`. `rid` is the hash's own `id` field (which in
a desynced state could in principle differ from the key). -/
structure RHash where
  rid : Nat
  text : String
  completed : String
  createdAt : Nat
  updatedAt : Option Nat
deriving Repr, DecidableEq

/-- The durable backend's state: the `todos:all` index set (`index`,
kept in insertion order) and one record per key (`records`, an
association list keyed by the id embedded in the `todo:<id>` key). -/
structure RedisState where
  index : List Nat
  records : List (Nat × RHash)
deriving Repr, DecidableEq

/-- `hGetAll('todo:' + id)`: first (only, in well-formed states) record
stored under the key, or `none` when the key is absent. -/
def lookupRec : List (Nat × RHash) → Nat → Option RHash
  | [], _ => none
  | p :: ps, k => if p.1 = k then some p.2 else lookupRec ps k

/-- Store a whole hash at a key, replacing the previous hash at that key
if any (field-level merging is done by the callers before this point). -/
def setRec : List (Nat × RHash) → Nat → RHash → List (Nat × RHash)
  | [], k, r => [(k, r)]
  | p :: ps, k, r => if p.1 = k then (k, r) :: ps else p :: setRec ps k r

/-- `del('todo:' + id)`: remove the record stored under the key. -/
def eraseRec : List (Nat × RHash) → Nat → List (Nat × RHash)
  | [], _ => []
  | p :: ps, k => if p.1 = k then ps else p :: eraseRec ps k

/-- The Item view `getTodoById`/`getAllTodos` build from a stored hash:
`completed` is parsed from the string, and a missing `updatedAt` field is
replaced by `createdAt` (`todoData.updatedAt || todoData.createdAt`). -/
def mkView (r : RHash) : Todo :=
  { id := r.rid, text := r.text, completed := r.completed == "true",
    createdAt := r.createdAt, updatedAt := some (r.updatedAt.getD r.createdAt) }

/-- `getTodoById(id)`: `null` when the hash is absent (the source's
`!todoData || !todoData.id` test; every stored hash has its `id` field
set), otherwise the Item view. -/
def getTodoById (s : RedisState) (id : Nat) : Option Todo :=
  (lookupRec s.records id).map mkView

/-- `getAllTodos()`: walk the id set, skip ids whose hash is missing
(the defensive `else` branch logging `Skipping todo ... invalid data`),
then sort newest-first. The model enumerates the set in insertion order;
real `SMEMBERS` order is unspecified, so nothing may depend on the
pre-sort order beyond the sort itself (statements that would be
order-sensitive quantify over an arbitrary enumeration instead). -/
def getAllTodos (s : RedisState) : List Todo :=
  sortByCreatedDesc (s.index.filterMap fun k => (lookupRec s.records k).map mkView)

/-- `createTodo(todo)`: `hSet` writes the four fields `id`, `text`,
`completed` (stringified), `createdAt` — a pre-existing `updatedAt` field
at the same key is untouched since `hSet` merges fields — then `sAdd`
puts the id in the set, and the input object itself is returned. -/
def createTodo (s : RedisState) (t : Todo) : Todo × RedisState :=
  let r : RHash :=
    { rid := t.id, text := t.text, completed := toString t.completed,
      createdAt := t.createdAt,
      updatedAt := (lookupRec s.records t.id).bind (·.updatedAt) }
  (t, { index := if t.id ∈ s.index then s.index else s.index ++ [t.id],
        records := setRec s.records t.id r })

/-- `updateTodo(id, updates)`: `exists(todoKey)` gate, then an `hSet`
whose field object always carries a fresh `updatedAt` and carries `text`
/ `completed` only when they are `!== undefined`; returns a re-read of
the record (`getTodoById`). -/
def updateTodo (s : RedisState) (id : Nat) (u : Upd) (now : Nat) :
    Option Todo × RedisState :=
  match lookupRec s.records id with
  | none => (none, s)
  | some r =>
    let r' : RHash :=
      { r with updatedAt := some now,
               text := u.text.getD r.text,
               completed := match u.completed with
                            | some b => toString b
                            | none => r.completed }
    let s' : RedisState := { s with records := setRec s.records id r' }
    (getTodoById s' id, s')

/-- `deleteTodo(id)`: read the Item first (`null` short-circuits), then
`del` the hash and `sRem` the id from the set, returning the snapshot. -/
def deleteTodo (s : RedisState) (id : Nat) : Option Todo × RedisState :=
  match getTodoById s id with
  | none => (none, s)
  | some t =>
    (some t, { index := s.index.filter (· ≠ id), records := eraseRec s.records id })

/-- `getStats()`: counts recomputed from `getAllTodos()` on every call. -/
def getStats (s : RedisState) : Stats :=
  let todos := getAllTodos s
  { total := todos.length,
    completed := (todos.filter (·.completed)).length,
    pending := (todos.filter fun t => !t.completed).length }

/-- The two default todos seeded on first run, with fresh uuids (`g`,
`g+1`). The source stamps each seed with its own `new Date()` call; this
shared-`t0` variant (both calls landing on the same millisecond) is used
by the trace semantics, and `seedDefaultTodosAt` keeps the two
timestamps distinct where their order matters. -/
def defaultTodos (g t0 : Nat) : List Todo :=
  [ { id := g, text := "Welcome to your DevOps To-Do App with Redis!",
      completed := false, createdAt := t0, updatedAt := none },
    { id := g + 1, text := "Set up CI/CD pipeline with Redis database",
      completed := true, createdAt := t0, updatedAt := none } ]

/-- `initializeDefaultTodos()`: seeds the two defaults through
`createTodo` only when `getAllTodos()` is empty; returns the state and
the next fresh id. -/
def seedDefaultTodos (s : RedisState) (g t0 : Nat) : RedisState × Nat :=
  if (getAllTodos s).length = 0 then
    ((defaultTodos g t0).foldl (fun st t => (createTodo st t).2) s, g + 2)
  else (s, g)

end RedisService

/-- The selected backend: `useRedis = true` (Durable-active, a
`RedisState`) or `false` (Volatile-active, the `inMemoryTodos` array). -/
inductive Store where
  | redis : RedisService.RedisState → Store
  | mem : List Todo → Store
deriving Repr, DecidableEq

namespace TodoService

/-- In-memory `updateTodo` body: `findIndex` locates the first item with
the id, mutates only the fields that are `!== undefined`, stamps
`updatedAt`, and returns the mutated element; the recursion mirrors the
first-match index search. -/
def memUpdate : List Todo → Nat → Upd → Nat → Option Todo × List Todo
  | [], _, _, _ => (none, [])
  | t :: ts, id, u, now =>
    if t.id = id then
      let t' : Todo :=
        { t with text := u.text.getD t.text,
                 completed := u.completed.getD t.completed,
                 updatedAt := some now }
      (some t', t' :: ts)
    else
      ((memUpdate ts id u now).1, t :: (memUpdate ts id u now).2)

/-- In-memory `deleteTodo` body: `findIndex` then `splice(idx, 1)[0]` —
removes the first item with the id and returns it. -/
def memDelete : List Todo → Nat → Option Todo × List Todo
  | [], _ => (none, [])
  | t :: ts, id =>
    if t.id = id then (some t, ts)
    else ((memDelete ts id).1, t :: (memDelete ts id).2)

/-- `getAllTodos()`: Durable-active delegates to Redis; Volatile-active
sorts `inMemoryTodos` in place (JS `sort` both mutates and returns the
array, hence the state change on the `mem` branch). -/
def getAllTodos : Store → List Todo × Store
  | .redis s => (RedisService.getAllTodos s, .redis s)
  | .mem l => (sortByCreatedDesc l, .mem (sortByCreatedDesc l))

/-- `getTodoById(id)`: Redis delegation, or `find(todo => todo.id ===
id) || null` on the in-memory array. -/
def getTodoById : Store → Nat → Option Todo
  | .redis s, id => RedisService.getTodoById s id
  | .mem l, id => l.find? fun t => t.id == id

/-- `createTodo(todo)`: Redis delegation, or `inMemoryTodos.push(todo)`
followed by returning the pushed object. -/
def createTodo : Store → Todo → Todo × Store
  | .redis s, t => ((RedisService.createTodo s t).1, .redis (RedisService.createTodo s t).2)
  | .mem l, t => (t, .mem (l ++ [t]))

/-- `updateTodo(id, updates)` at the facade. -/
def updateTodo : Store → Nat → Upd → Nat → Option Todo × Store
  | .redis s, id, u, now =>
    ((RedisService.updateTodo s id u now).1, .redis (RedisService.updateTodo s id u now).2)
  | .mem l, id, u, now =>
    ((memUpdate l id u now).1, .mem (memUpdate l id u now).2)

/-- `deleteTodo(id)` at the facade. -/
def deleteTodo : Store → Nat → Option Todo × Store
  | .redis s, id => ((RedisService.deleteTodo s id).1, .redis (RedisService.deleteTodo s id).2)
  | .mem l, id => ((memDelete l id).1, .mem (memDelete l id).2)

/-- `getStats()`: Redis delegation, or counts over the live
`inMemoryTodos` array (no caching, no sorting on this path). -/
def getStats : Store → Stats
  | .redis s => RedisService.getStats s
  | .mem l =>
    { total := l.length,
      completed := (l.filter (·.completed)).length,
      pending := (l.filter fun t => !t.completed).length }

end TodoService

/-- The whole service process: the selected backend's store plus the
uuid oracle (`nextId`), modelling `uuidv4()`'s global-freshness
contract as a counter. -/
structure Sys where
  store : Store
  nextId : Nat
deriving Repr, DecidableEq

/-- `POST /api/todos` handler: rejects empty/whitespace text, otherwise
builds `{id: uuidv4(), text: text.trim(), completed: false, createdAt:
now}` and hands it to the facade's create. -/
def postTodo (sys : Sys) (text : String) (now : Nat) : Option Todo × Sys :=
  if text.trim = "" then (none, sys)
  else
    let t : Todo :=
      { id := sys.nextId, text := text.trim, completed := false,
        createdAt := now, updatedAt := none }
    (some (TodoService.createTodo sys.store t).1,
     { store := (TodoService.createTodo sys.store t).2, nextId := sys.nextId + 1 })

/-- `PUT /api/todos/:id` handler: destructures `{text, completed}` from
the body with no validation and forwards them to `updateTodo`. -/
def putTodo (sys : Sys) (id : Nat) (u : Upd) (now : Nat) : Option Todo × Sys :=
  ((TodoService.updateTodo sys.store id u now).1,
   { sys with store := (TodoService.updateTodo sys.store id u now).2 })

/-- `DELETE /api/todos/:id` handler. -/
def deleteTodoReq (sys : Sys) (id : Nat) : Option Todo × Sys :=
  ((TodoService.deleteTodo sys.store id).1,
   { sys with store := (TodoService.deleteTodo sys.store id).2 })

/-- One externally triggered storage operation (each carries the wall
clock reading `new Date()` observed when it ran). -/
inductive Op where
  | create (text : String) (now : Nat)
  | update (id : Nat) (u : Upd) (now : Nat)
  | delete (id : Nat)
  | listAll
deriving Repr, DecidableEq

/-- Execute one operation against the running service. -/
def stepOp (sys : Sys) : Op → Sys
  | .create text now => (postTodo sys text now).2
  | .update id u now => (putTodo sys id u now).2
  | .delete id => (deleteTodoReq sys id).2
  | .listAll => { sys with store := (TodoService.getAllTodos sys.store).2 }

/-- Execute a sequence of operations. -/
def runOps (sys : Sys) (ops : List Op) : Sys :=
  ops.foldl stepOp sys

/-- The module-level `inMemoryTodos` seed, built at load time with two
fresh uuids (`g`, `g+1`). The source stamps each item with its own
`new Date()` call; this shared-`t0` variant is used by the trace
semantics, and `inMemoryTodosAt` keeps the two timestamps distinct where
their order matters. -/
def inMemoryTodos (g t0 : Nat) : List Todo :=
  [ { id := g, text := "Welcome to your DevOps To-Do App!",
      completed := false, createdAt := t0, updatedAt := none },
    { id := g + 1, text := "Set up CI/CD pipeline",
      completed := true, createdAt := t0, updatedAt := none } ]

/-- Boot with the durable backend unreachable: Volatile-active over the
module-level seed (uuids 0 and 1 were consumed by the seed). -/
def bootVolatile (t0 : Nat) : Sys :=
  { store := .mem (inMemoryTodos 0 t0), nextId := 2 }

/-- Boot with the durable backend reachable: connect, then first-run
seeding of an empty store (uuids 0 and 1 were already consumed by the
module-level `inMemoryTodos`, so the seeds draw 2 and 3). -/
def bootDurable (t0 : Nat) : Sys :=
  { store := .redis (RedisService.seedDefaultTodos ⟨[], []⟩ 2 t0).1,
    nextId := (RedisService.seedDefaultTodos ⟨[], []⟩ 2 t0).2 }

/-- Boot-time backend selection (§4.4 of the design): `useRedis` is
decided once from the connection attempt's outcome. -/
def boot (useRedis : Bool) (t0 : Nat) : Sys :=
  if useRedis then bootDurable t0 else bootVolatile t0

/-- All ids the backend is holding (for the durable store: both the
index set and the record keys). -/
def idsOf : Store → List Nat
  | .redis s => s.index ++ s.records.map Prod.fst
  | .mem l => l.map (·.id)

/-- The ids of the Items the backend's dataset holds: one per stored
record (durable) or array element (volatile). -/
def datasetIds : Store → List Nat
  | .redis s => s.records.map Prod.fst
  | .mem l => l.map (·.id)

/-- Well-formedness of a backend state: every stored hash's `id` field
matches its key, record keys are distinct, the index is a set, and (in
memory) item ids are distinct. -/
def StoreWF : Store → Prop
  | .redis s =>
      (∀ p ∈ s.records, (Prod.snd p).rid = p.1) ∧
      (s.records.map Prod.fst).Nodup ∧ s.index.Nodup
  | .mem l => (l.map (·.id)).Nodup

/-- System invariant: the store is well formed and every id it holds
was drawn from the uuid oracle (is below the counter). -/
def SysInv (sys : Sys) : Prop :=
  StoreWF sys.store ∧ ∀ i ∈ idsOf sys.store, i < sys.nextId

/-- First-run seeding with the two `new Date().toISOString()` calls kept
distinct: the first seed is stamped `td0`, the second `td1` (the shared-
timestamp `seedDefaultTodos` is the special case `td1 = td0`). Used to
reason about seeding without fixing the seeds' relative listing order. -/
def RedisService.seedDefaultTodosAt (s : RedisService.RedisState) (g td0 td1 : Nat) :
    RedisService.RedisState × Nat :=
  if (RedisService.getAllTodos s).length = 0 then
    ((RedisService.createTodo
        (RedisService.createTodo s
          ⟨g, "Welcome to your DevOps To-Do App with Redis!", false, td0, none⟩).2
        ⟨g + 1, "Set up CI/CD pipeline with Redis database", true, td1, none⟩).2,
     g + 2)
  else (s, g)

/-- The module-level `inMemoryTodos` seed with the two per-item
`new Date()` calls kept distinct (`tv0` for the first item, `tv1` for
the second); `inMemoryTodos` is the special case `tv1 = tv0`. -/
def inMemoryTodosAt (g tv0 tv1 : Nat) : List Todo :=
  [ { id := g, text := "Welcome to your DevOps To-Do App!",
      completed := false, createdAt := tv0, updatedAt := none },
    { id := g + 1, text := "Set up CI/CD pipeline",
      completed := true, createdAt := tv1, updatedAt := none } ]

/-! ## Basic lemmas about the embedded operations -/

/-- `Bool.toString` round-trips through the durable store's string
encoding of `completed`. -/
theorem toString_beq_true (b : Bool) : (toString b == "true") = b := by
  cases b <;> rfl

/-- Splitting a list's length by a boolean predicate. -/
theorem length_filter_add_length_filter_not (l : List Todo) (p : Todo → Bool) :
    (l.filter p).length + (l.filter fun t => !p t).length = l.length := by
  induction l with
  | nil => rfl
  | cons t ts ih =>
    cases h : p t <;> simp [List.filter_cons, h] <;> omega

namespace RedisService

theorem lookupRec_setRec_self (l : List (Nat × RHash)) (k : Nat) (r : RHash) :
    lookupRec (setRec l k r) k = some r := by
  induction l with
  | nil => simp [setRec, lookupRec]
  | cons p ps ih =>
    by_cases h : p.1 = k
    · simp [setRec, h, lookupRec]
    · simp [setRec, h, lookupRec, ih]

theorem lookupRec_eq_none (l : List (Nat × RHash)) (k : Nat)
    (h : k ∉ l.map Prod.fst) : lookupRec l k = none := by
  induction l with
  | nil => rfl
  | cons p ps ih =>
    simp only [List.map_cons, List.mem_cons] at h
    push_neg at h
    have hp : ¬ p.1 = k := fun hp => h.1 hp.symm
    simp [lookupRec, hp, ih h.2]

theorem lookupRec_mem {l : List (Nat × RHash)} {k : Nat} {r : RHash}
    (h : lookupRec l k = some r) : (k, r) ∈ l := by
  induction l with
  | nil => simp [lookupRec] at h
  | cons p ps ih =>
    by_cases hp : p.1 = k
    · simp only [lookupRec, hp, if_pos] at h
      have : p = (k, r) := by
        cases p
        simp_all
      simp [this]
    · simp only [lookupRec, hp, if_neg, ite_false] at h
      exact List.mem_cons_of_mem _ (ih h)

theorem mem_keys_of_lookupRec {l : List (Nat × RHash)} {k : Nat} {r : RHash}
    (h : lookupRec l k = some r) : k ∈ l.map Prod.fst := by
  exact List.mem_map_of_mem Prod.fst (lookupRec_mem h)

theorem keys_setRec (l : List (Nat × RHash)) (k : Nat) (r : RHash) :
    (setRec l k r).map Prod.fst =
      if k ∈ l.map Prod.fst then l.map Prod.fst else l.map Prod.fst ++ [k] := by
  induction l with
  | nil => simp [setRec]
  | cons p ps ih =>
    by_cases h : p.1 = k
    · simp [setRec, h]
    · have hk : ¬ k = p.1 := fun hk => h hk.symm
      by_cases h2 : k ∈ ps.map Prod.fst <;> simp [setRec, h, ih, h2, hk]

theorem keys_setRec_nodup {l : List (Nat × RHash)} {k : Nat} {r : RHash}
    (h : (l.map Prod.fst).Nodup) : ((setRec l k r).map Prod.fst).Nodup := by
  rw [keys_setRec]
  by_cases hm : k ∈ l.map Prod.fst
  · simpa [hm] using h
  · simp [hm, List.nodup_append, h]

theorem mem_setRec {l : List (Nat × RHash)} {k : Nat} {r : RHash} {p : Nat × RHash}
    (h : p ∈ setRec l k r) : p = (k, r) ∨ p ∈ l := by
  induction l with
  | nil => simpa [setRec] using h
  | cons q qs ih =>
    by_cases hq : q.1 = k
    · simp only [setRec, hq, if_pos] at h
      rcases List.mem_cons.1 h with h | h
      · exact Or.inl h
      · exact Or.inr (List.mem_cons_of_mem _ h)
    · simp only [setRec, hq, if_neg, ite_false] at h
      rcases List.mem_cons.1 h with h | h
      · exact Or.inr (by simp [h])
      · rcases ih h with h' | h'
        · exact Or.inl h'
        · exact Or.inr (List.mem_cons_of_mem _ h')

theorem eraseRec_sublist (l : List (Nat × RHash)) (k : Nat) :
    List.Sublist (eraseRec l k) l := by
  induction l with
  | nil => simp [eraseRec]
  | cons p ps ih =>
    by_cases h : p.1 = k
    · simp [eraseRec, h, List.sublist_cons_self]
    · simpa [eraseRec, h] using ih.cons₂ p

theorem mem_eraseRec {l : List (Nat × RHash)} {k : Nat} {p : Nat × RHash}
    (h : p ∈ eraseRec l k) : p ∈ l :=
  (eraseRec_sublist l k).subset h

theorem lookupRec_eraseRec_self {l : List (Nat × RHash)} (k : Nat)
    (h : (l.map Prod.fst).Nodup) : lookupRec (eraseRec l k) k = none := by
  induction l with
  | nil => rfl
  | cons p ps ih =>
    simp only [List.map_cons, List.nodup_cons] at h
    by_cases hp : p.1 = k
    · simp only [eraseRec, hp, if_pos]
      exact lookupRec_eq_none ps k (hp ▸ h.1)
    · simp [eraseRec, hp, lookupRec, ih h.2]

end RedisService

/-! ## Sorting lemmas -/

theorem insertDesc_perm (x : Todo) (l : List Todo) :
    List.Perm (insertDesc x l) (x :: l) := by
  induction l with
  | nil => simp [insertDesc]
  | cons y ys ih =>
    by_cases h : y.createdAt ≤ x.createdAt
    · simp [insertDesc, h]
    · simp only [insertDesc, h, if_neg, ite_false]
      exact (ih.cons y).trans (List.Perm.swap x y ys)

theorem sortByCreatedDesc_perm (l : List Todo) :
    List.Perm (sortByCreatedDesc l) l := by
  induction l with
  | nil => simp [sortByCreatedDesc]
  | cons x xs ih =>
    exact (insertDesc_perm x (sortByCreatedDesc xs)).trans (ih.cons x)

theorem pairwise_insertDesc (x : Todo) (l : List Todo)
    (h : l.Pairwise fun a b => b.createdAt ≤ a.createdAt) :
    (insertDesc x l).Pairwise fun a b => b.createdAt ≤ a.createdAt := by
  induction l with
  | nil => simp [insertDesc]
  | cons y ys ih =>
    rcases List.pairwise_cons.1 h with ⟨hy, hys⟩
    by_cases hc : y.createdAt ≤ x.createdAt
    · simp only [insertDesc, hc, if_pos, List.pairwise_cons]
      refine ⟨?_, hy, hys⟩
      intro b hb
      rcases List.mem_cons.1 hb with rfl | hb
      · exact hc
      · exact le_trans (hy b hb) hc
    · simp only [insertDesc, hc, if_neg, ite_false, List.pairwise_cons]
      refine ⟨?_, ih hys⟩
      intro b hb
      rcases List.mem_cons.1 ((insertDesc_perm x ys).mem_iff.1 hb) with rfl | hb
      · exact le_of_lt (Nat.lt_of_not_le hc)
      · exact hy b hb

theorem pairwise_sortByCreatedDesc (l : List Todo) :
    (sortByCreatedDesc l).Pairwise fun a b => b.createdAt ≤ a.createdAt := by
  induction l with
  | nil => simp [sortByCreatedDesc]
  | cons x xs ih => exact pairwise_insertDesc x (sortByCreatedDesc xs) ih

/-! ## Lemmas about the in-memory backend -/

namespace TodoService

theorem memUpdate_ids (l : List Todo) (id : Nat) (u : Upd) (now : Nat) :
    ((memUpdate l id u now).2).map (·.id) = l.map (·.id) := by
  induction l with
  | nil => rfl
  | cons t ts ih =>
    by_cases h : t.id = id
    · simp [memUpdate, h]
    · simp [memUpdate, h, ih]

theorem memDelete_sublist (l : List Todo) (id : Nat) :
    List.Sublist (memDelete l id).2 l := by
  induction l with
  | nil => simp [memDelete]
  | cons t ts ih =>
    by_cases h : t.id = id
    · simp [memDelete, h, List.sublist_cons_self]
    · simpa [memDelete, h] using ih.cons₂ t

/-- `find` over ids returns the sought element itself when ids are
distinct. -/
theorem find?_id_of_mem {l : List Todo} {a : Todo}
    (hn : (l.map (·.id)).Nodup) (ha : a ∈ l) :
    (l.find? fun t => t.id == a.id) = some a := by
  induction l with
  | nil => cases ha
  | cons t ts ih =>
    simp only [List.map_cons, List.nodup_cons] at hn
    by_cases h : t.id = a.id
    · have hta : t = a := by
        rcases List.mem_cons.1 ha with rfl | hmem
        · rfl
        · exact absurd (h ▸ List.mem_map_of_mem (·.id) hmem) hn.1
      rw [List.find?_cons_of_pos]
      · rw [hta]
      · simp [h]
    · have hmem : a ∈ ts := by
        rcases List.mem_cons.1 ha with rfl | hmem
        · exact absurd rfl h
        · exact hmem
      rw [List.find?_cons_of_neg]
      · exact ih hn.2 hmem
      · simp [h]

/-- `find` misses every id the list does not contain. -/
theorem find?_id_eq_none {l : List Todo} {id : Nat}
    (h : id ∉ l.map (·.id)) : (l.find? fun t => t.id == id) = none := by
  induction l with
  | nil => rfl
  | cons t ts ih =>
    simp only [List.map_cons, List.mem_cons] at h
    push_neg at h
    have ht : ¬ t.id = id := fun hp => h.1 hp.symm
    rw [List.find?_cons_of_neg]
    · exact ih h.2
    · simp [ht]

/-- A fresh element pushed at the end is the one `find` returns. -/
theorem find?_append_fresh {l : List Todo} {t : Todo}
    (h : t.id ∉ l.map (·.id)) :
    ((l ++ [t]).find? fun x => x.id == t.id) = some t := by
  induction l with
  | nil => simp [List.find?]
  | cons y ys ih =>
    simp only [List.map_cons, List.mem_cons] at h
    push_neg at h
    have hyt : ¬ y.id = t.id := fun hp => h.1 hp.symm
    rw [List.cons_append, List.find?_cons_of_neg]
    · exact ih h.2
    · simp [hyt]

/-- What the in-memory update returns is exactly what a subsequent `find`
on the mutated array sees at that id. -/
theorem memUpdate_find? (l : List Todo) (id : Nat) (u : Upd) (now : Nat) :
    ((memUpdate l id u now).2.find? fun x => x.id == id) =
      (memUpdate l id u now).1 := by
  induction l with
  | nil => rfl
  | cons t ts ih =>
    by_cases h : t.id = id
    · simp only [memUpdate, h, if_pos]
      rw [List.find?_cons_of_pos]
      simp
    · simp only [memUpdate, h, if_neg, ite_false]
      rw [List.find?_cons_of_neg]
      · exact ih
      · simp [h]

/-- The element the in-memory update returns, in terms of the first
element carrying the id. -/
theorem memUpdate_of_find? {l : List Todo} {id : Nat} {t : Todo} (u : Upd) (now : Nat)
    (h : (l.find? fun x => x.id == id) = some t) :
    (memUpdate l id u now).1 =
      some { t with text := u.text.getD t.text,
                    completed := u.completed.getD t.completed,
                    updatedAt := some now } := by
  induction l with
  | nil => simp [List.find?] at h
  | cons y ys ih =>
    by_cases hy : y.id = id
    · rw [List.find?_cons_of_pos] at h
      · cases h
        simp [memUpdate, hy]
      · simp [hy]
    · rw [List.find?_cons_of_neg] at h
      · simp only [memUpdate, hy, if_neg, ite_false]
        exact ih h
      · simp [hy]

/-- The snapshot the in-memory delete returns is the first element with
the id. -/
theorem memDelete_of_find? {l : List Todo} {id : Nat} :
    (memDelete l id).1 = (l.find? fun x => x.id == id) := by
  induction l with
  | nil => rfl
  | cons y ys ih =>
    by_cases hy : y.id = id
    · rw [List.find?_cons_of_pos]
      · simp [memDelete, hy]
      · simp [hy]
    · rw [List.find?_cons_of_neg]
      · simp only [memDelete, hy, if_neg, ite_false]
        exact ih
      · simp [hy]

/-- After an in-memory delete of `id`, no element carries `id` any more
(ids being distinct, only the removed first occurrence carried it). -/
theorem memDelete_ids_not_mem {l : List Todo} (id : Nat)
    (hn : (l.map (·.id)).Nodup) : id ∉ ((memDelete l id).2.map (·.id)) := by
  induction l with
  | nil => simp [memDelete]
  | cons t ts ih =>
    simp only [List.map_cons, List.nodup_cons] at hn
    by_cases h : t.id = id
    · simp only [memDelete, h, if_pos]
      exact h ▸ hn.1
    · simp only [memDelete, h, if_neg, ite_false, List.map_cons, List.mem_cons]
      push_neg
      exact ⟨fun hc => h hc.symm, ih hn.2⟩

end TodoService

/-! ## The reachability invariant -/

/-- First-run seeding on an empty durable store, computed. -/
theorem seedDefaultTodos_empty (g t0 : Nat) :
    RedisService.seedDefaultTodos ⟨[], []⟩ g t0 =
      (⟨[g, g + 1],
        [(g, ⟨g, "Welcome to your DevOps To-Do App with Redis!", "false", t0, none⟩),
         (g + 1, ⟨g + 1, "Set up CI/CD pipeline with Redis database", "true", t0, none⟩)]⟩,
       g + 2) := by
  have h1 : g + 1 ≠ g := by omega
  have h2 : g ≠ g + 1 := by omega
  simp [RedisService.seedDefaultTodos, RedisService.getAllTodos, sortByCreatedDesc,
    RedisService.defaultTodos, RedisService.createTodo, RedisService.lookupRec,
    RedisService.setRec, h1, h2, show toString false = "false" from rfl,
    show toString true = "true" from rfl]

/-- First-run seeding on an empty durable store with distinct per-seed
timestamps, computed. -/
theorem seedDefaultTodosAt_empty (g td0 td1 : Nat) :
    RedisService.seedDefaultTodosAt ⟨[], []⟩ g td0 td1 =
      (⟨[g, g + 1],
        [(g, ⟨g, "Welcome to your DevOps To-Do App with Redis!", "false", td0, none⟩),
         (g + 1, ⟨g + 1, "Set up CI/CD pipeline with Redis database", "true", td1, none⟩)]⟩,
       g + 2) := by
  have h1 : g + 1 ≠ g := by omega
  have h2 : g ≠ g + 1 := by omega
  simp [RedisService.seedDefaultTodosAt, RedisService.getAllTodos, sortByCreatedDesc,
    RedisService.createTodo, RedisService.lookupRec, RedisService.setRec, h1, h2,
    show toString false = "false" from rfl, show toString true = "true" from rfl]

/-- The two enumerations of a two-element set. -/
theorem perm_pair {α : Type} {l : List α} {a b : α} (h : List.Perm l [a, b]) :
    l = [a, b] ∨ l = [b, a] := by
  rcases l with _ | ⟨x, _ | ⟨y, _ | ⟨z, t⟩⟩⟩
  · exact absurd h.length_eq (by simp)
  · exact absurd h.length_eq (by simp)
  · have hx : x ∈ [a, b] := h.mem_iff.1 (by simp)
    rcases List.mem_cons.1 hx with rfl | hx
    · left
      have hy := h.cons_inv
      have : y = b := by simpa using hy.mem_iff.1 (by simp)
      rw [this]
    · have hx' : x = b := by simpa using hx
      right
      rw [hx'] at h ⊢
      have hy := (h.trans (List.Perm.swap b a [])).cons_inv
      have hya : y = a := by simpa using hy.mem_iff.1 (by simp)
      rw [hya]
  · exact absurd h.length_eq (by simp)

theorem sysInv_boot (b : Bool) (t0 : Nat) : SysInv (boot b t0) := by
  cases b
  · have hb : boot false t0 = bootVolatile t0 := rfl
    rw [hb]
    refine ⟨?_, ?_⟩
    · show StoreWF (bootVolatile t0).store
      simp [bootVolatile, inMemoryTodos, StoreWF]
    · intro i hi
      show i < 2
      simp [bootVolatile, inMemoryTodos, idsOf] at hi
      omega
  · have hb : boot true t0 = bootDurable t0 := rfl
    rw [hb]
    refine ⟨?_, ?_⟩
    · show StoreWF (bootDurable t0).store
      simp only [bootDurable, seedDefaultTodos_empty, StoreWF]
      refine ⟨?_, by norm_num, by norm_num⟩
      intro p hp
      rcases List.mem_cons.1 hp with rfl | hp
      · rfl
      · rcases List.mem_cons.1 hp with rfl | hp
        · rfl
        · cases hp
    · intro i hi
      have h4 : (bootDurable t0).nextId = 4 := by
        simp [bootDurable, seedDefaultTodos_empty]
      rw [h4]
      simp [bootDurable, seedDefaultTodos_empty, idsOf] at hi
      omega

theorem sysInv_stepOp {sys : Sys} (h : SysInv sys) (op : Op) :
    SysInv (stepOp sys op) := by
  obtain ⟨hwf, hbound⟩ := h
  cases op with
  | create text now =>
    by_cases htr : text.trim = ""
    · exact (by simpa [stepOp, postTodo, htr] using And.intro hwf hbound)
    · cases hst : sys.store with
      | mem l =>
        have hwfm : (l.map (·.id)).Nodup := by rw [hst] at hwf; exact hwf
        have hbm : ∀ i ∈ l.map (·.id), i < sys.nextId := by
          rw [hst] at hbound; exact hbound
        have hfresh : sys.nextId ∉ l.map (·.id) := fun hc =>
          absurd (hbm _ hc) (lt_irrefl _)
        constructor
        · show StoreWF (stepOp sys (.create text now)).store
          simp only [stepOp, postTodo, htr, if_neg, ite_false, hst,
            TodoService.createTodo, StoreWF, List.map_append]
          simp [List.nodup_append, hwfm, hfresh]
        · intro i hi
          have hn : (stepOp sys (.create text now)).nextId = sys.nextId + 1 := by
            simp [stepOp, postTodo, htr]
          rw [hn]
          simp only [stepOp, postTodo, htr, if_neg, ite_false, hst,
            TodoService.createTodo, idsOf, List.map_append, List.mem_append,
            List.map_cons, List.map_nil, List.mem_singleton] at hi
          rcases hi with hi | hi
          · exact Nat.lt_succ_of_lt (hbm i hi)
          · omega
      | redis s =>
        have hwfr : (∀ p ∈ s.records, (Prod.snd p).rid = p.1) ∧
            (s.records.map Prod.fst).Nodup ∧ s.index.Nodup := by
          rw [hst] at hwf; exact hwf
        obtain ⟨hrid, hkeys, hidx⟩ := hwfr
        have hbr : ∀ i ∈ s.index ++ s.records.map Prod.fst, i < sys.nextId := by
          rw [hst] at hbound; exact hbound
        have hfidx : sys.nextId ∉ s.index := fun hc =>
          absurd (hbr _ (List.mem_append_left _ hc)) (lt_irrefl _)
        have hfkeys : sys.nextId ∉ s.records.map Prod.fst := fun hc =>
          absurd (hbr _ (List.mem_append_right _ hc)) (lt_irrefl _)
        constructor
        · show StoreWF (stepOp sys (.create text now)).store
          simp only [stepOp, postTodo, htr, if_neg, ite_false, hst,
            TodoService.createTodo, RedisService.createTodo, StoreWF, hfidx]
          refine ⟨?_, RedisService.keys_setRec_nodup hkeys, ?_⟩
          · intro p hp
            rcases RedisService.mem_setRec hp with rfl | hp
            · rfl
            · exact hrid p hp
          · simp [List.nodup_append, hidx, hfidx]
        · intro i hi
          have hn : (stepOp sys (.create text now)).nextId = sys.nextId + 1 := by
            simp [stepOp, postTodo, htr]
          rw [hn]
          simp only [stepOp, postTodo, htr, if_neg, ite_false, hst,
            TodoService.createTodo, RedisService.createTodo, idsOf, hfidx,
            RedisService.keys_setRec, hfkeys, List.mem_append,
            List.mem_singleton] at hi
          rcases hi with hi | hi
          · rcases hi with hi | hi
            · exact Nat.lt_succ_of_lt (hbr i (List.mem_append_left _ hi))
            · omega
          · rcases hi with hi | hi
            · exact Nat.lt_succ_of_lt (hbr i (List.mem_append_right _ hi))
            · omega
  | update id u now =>
    cases hst : sys.store with
    | mem l =>
      have hwfm : (l.map (·.id)).Nodup := by rw [hst] at hwf; exact hwf
      have hbm : ∀ i ∈ l.map (·.id), i < sys.nextId := by
        rw [hst] at hbound; exact hbound
      constructor
      · show StoreWF (stepOp sys (.update id u now)).store
        simp only [stepOp, putTodo, hst, TodoService.updateTodo, StoreWF,
          TodoService.memUpdate_ids]
        exact hwfm
      · intro i hi
        rw [show (stepOp sys (.update id u now)).nextId = sys.nextId from rfl]
        simp only [stepOp, putTodo, hst, TodoService.updateTodo, idsOf,
          TodoService.memUpdate_ids] at hi
        exact hbm i hi
    | redis s =>
      have hwfr : (∀ p ∈ s.records, (Prod.snd p).rid = p.1) ∧
          (s.records.map Prod.fst).Nodup ∧ s.index.Nodup := by
        rw [hst] at hwf; exact hwf
      obtain ⟨hrid, hkeys, hidx⟩ := hwfr
      have hbr : ∀ i ∈ s.index ++ s.records.map Prod.fst, i < sys.nextId := by
        rw [hst] at hbound; exact hbound
      cases hl : RedisService.lookupRec s.records id with
      | none =>
        constructor
        · show StoreWF (stepOp sys (.update id u now)).store
          simp only [stepOp, putTodo, hst, TodoService.updateTodo,
            RedisService.updateTodo, hl, StoreWF]
          exact ⟨hrid, hkeys, hidx⟩
        · intro i hi
          rw [show (stepOp sys (.update id u now)).nextId = sys.nextId from rfl]
          refine hbr i ?_
          simpa only [stepOp, putTodo, hst, TodoService.updateTodo,
            RedisService.updateTodo, hl, idsOf] using hi
      | some r =>
        have hkmem : id ∈ s.records.map Prod.fst :=
          RedisService.mem_keys_of_lookupRec hl
        constructor
        · show StoreWF (stepOp sys (.update id u now)).store
          simp only [stepOp, putTodo, hst, TodoService.updateTodo,
            RedisService.updateTodo, hl, StoreWF]
          refine ⟨?_, RedisService.keys_setRec_nodup hkeys, hidx⟩
          intro p hp
          rcases RedisService.mem_setRec hp with rfl | hp
          · exact hrid (id, r) (RedisService.lookupRec_mem hl)
          · exact hrid p hp
        · intro i hi
          rw [show (stepOp sys (.update id u now)).nextId = sys.nextId from rfl]
          simp only [stepOp, putTodo, hst, TodoService.updateTodo,
            RedisService.updateTodo, hl, idsOf, List.mem_append,
            RedisService.keys_setRec, hkmem, if_true, if_pos] at hi
          rcases hi with hi | hi
          · exact hbr i (List.mem_append_left _ hi)
          · exact hbr i (List.mem_append_right _ hi)
  | delete id =>
    cases hst : sys.store with
    | mem l =>
      have hwfm : (l.map (·.id)).Nodup := by rw [hst] at hwf; exact hwf
      have hbm : ∀ i ∈ l.map (·.id), i < sys.nextId := by
        rw [hst] at hbound; exact hbound
      constructor
      · show StoreWF (stepOp sys (.delete id)).store
        simp only [stepOp, deleteTodoReq, hst, TodoService.deleteTodo, StoreWF]
        exact hwfm.sublist ((TodoService.memDelete_sublist l id).map (·.id))
      · intro i hi
        rw [show (stepOp sys (.delete id)).nextId = sys.nextId from rfl]
        simp only [stepOp, deleteTodoReq, hst, TodoService.deleteTodo, idsOf] at hi
        exact hbm i (((TodoService.memDelete_sublist l id).map (·.id)).subset hi)
    | redis s =>
      have hwfr : (∀ p ∈ s.records, (Prod.snd p).rid = p.1) ∧
          (s.records.map Prod.fst).Nodup ∧ s.index.Nodup := by
        rw [hst] at hwf; exact hwf
      obtain ⟨hrid, hkeys, hidx⟩ := hwfr
      have hbr : ∀ i ∈ s.index ++ s.records.map Prod.fst, i < sys.nextId := by
        rw [hst] at hbound; exact hbound
      cases hg : RedisService.getTodoById s id with
      | none =>
        constructor
        · show StoreWF (stepOp sys (.delete id)).store
          simp only [stepOp, deleteTodoReq, hst, TodoService.deleteTodo,
            RedisService.deleteTodo, hg, StoreWF]
          exact ⟨hrid, hkeys, hidx⟩
        · intro i hi
          rw [show (stepOp sys (.delete id)).nextId = sys.nextId from rfl]
          refine hbr i ?_
          simpa only [stepOp, deleteTodoReq, hst, TodoService.deleteTodo,
            RedisService.deleteTodo, hg, idsOf] using hi
      | some t =>
        constructor
        · show StoreWF (stepOp sys (.delete id)).store
          simp only [stepOp, deleteTodoReq, hst, TodoService.deleteTodo,
            RedisService.deleteTodo, hg, StoreWF]
          refine ⟨?_, ?_, hidx.filter _⟩
          · intro p hp
            exact hrid p (RedisService.mem_eraseRec hp)
          · exact hkeys.sublist ((RedisService.eraseRec_sublist s.records id).map Prod.fst)
        · intro i hi
          rw [show (stepOp sys (.delete id)).nextId = sys.nextId from rfl]
          simp only [stepOp, deleteTodoReq, hst, TodoService.deleteTodo,
            RedisService.deleteTodo, hg, idsOf, List.mem_append] at hi
          rcases hi with hi | hi
          · exact hbr i (List.mem_append_left _ (List.mem_of_mem_filter hi))
          · exact hbr i (List.mem_append_right _
              (((RedisService.eraseRec_sublist s.records id).map Prod.fst).subset hi))
  | listAll =>
    cases hst : sys.store with
    | mem l =>
      have hwfm : (l.map (·.id)).Nodup := by rw [hst] at hwf; exact hwf
      have hbm : ∀ i ∈ l.map (·.id), i < sys.nextId := by
        rw [hst] at hbound; exact hbound
      constructor
      · show StoreWF (stepOp sys .listAll).store
        simp only [stepOp, hst, TodoService.getAllTodos, StoreWF]
        exact (((sortByCreatedDesc_perm l).map (·.id)).nodup_iff).2 hwfm
      · intro i hi
        rw [show (stepOp sys .listAll).nextId = sys.nextId from rfl]
        simp only [stepOp, hst, TodoService.getAllTodos, idsOf] at hi
        exact hbm i (((sortByCreatedDesc_perm l).map (·.id)).mem_iff.1 hi)
    | redis s =>
      constructor
      · show StoreWF (stepOp sys .listAll).store
        simp only [stepOp, hst, TodoService.getAllTodos]
        rw [hst] at hwf
        exact hwf
      · intro i hi
        rw [show (stepOp sys .listAll).nextId = sys.nextId from rfl]
        refine hbound i ?_
        rw [hst]
        simpa only [stepOp, hst, TodoService.getAllTodos, idsOf] using hi

theorem sysInv_runOps {sys : Sys} (h : SysInv sys) (ops : List Op) :
    SysInv (runOps sys ops) := by
  induction ops generalizing sys with
  | nil => exact h
  | cons op ops ih =>
    simp only [runOps, List.foldl_cons]
    exact ih (sysInv_stepOp h op)

theorem nextId_le_stepOp (sys : Sys) (op : Op) :
    sys.nextId ≤ (stepOp sys op).nextId := by
  cases op with
  | create text now =>
    by_cases htr : text.trim = "" <;> simp [stepOp, postTodo, htr]
  | update id u now => simp [stepOp, putTodo]
  | delete id => simp [stepOp, deleteTodoReq]
  | listAll => simp [stepOp]

theorem nextId_le_runOps (sys : Sys) (ops : List Op) :
    sys.nextId ≤ (runOps sys ops).nextId := by
  induction ops generalizing sys with
  | nil => exact le_refl _
  | cons op ops ih =>
    simp only [runOps, List.foldl_cons]
    exact le_trans (nextId_le_stepOp sys op) (ih _)

theorem runOps_append (sys : Sys) (l₁ l₂ : List Op) :
    runOps sys (l₁ ++ l₂) = runOps (runOps sys l₁) l₂ := by
  simp [runOps, List.foldl_append]

/-- On the durable backend, every Item of `getAllTodos` is read back
verbatim by `getTodoById` at its own id (the stored `id` field matching
the key is what makes the round trip close). -/
theorem RedisService.getAllTodos_getTodoById {s : RedisService.RedisState} {item : Todo}
    (hrid : ∀ p ∈ s.records, (Prod.snd p).rid = p.1)
    (hmem : item ∈ RedisService.getAllTodos s) :
    RedisService.getTodoById s item.id = some item := by
  have hm : item ∈ s.index.filterMap
      fun k => (RedisService.lookupRec s.records k).map RedisService.mkView :=
    (sortByCreatedDesc_perm _).mem_iff.1 hmem
  rcases List.mem_filterMap.1 hm with ⟨k, hk, hfk⟩
  rcases Option.map_eq_some'.1 hfk with ⟨r, hr, hview⟩
  have hridk : r.rid = k := hrid (k, r) (RedisService.lookupRec_mem hr)
  have hid : item.id = k := by
    rw [← hview]
    simpa [RedisService.mkView] using hridk
  rw [RedisService.getTodoById, hid, hr]
  simp [hview]

/-! ## Shared helper lemmas for the claims -/

theorem storeWF_datasetIds_nodup {st : Store} (h : StoreWF st) :
    (datasetIds st).Nodup := by
  cases st with
  | redis s => exact h.2.1
  | mem l => exact h

theorem RedisService.lookupRec_ne_none {l : List (Nat × RedisService.RHash)} {k : Nat}
    (h : k ∈ l.map Prod.fst) : RedisService.lookupRec l k ≠ none := by
  induction l with
  | nil => simp at h
  | cons p ps ih =>
    by_cases hp : p.1 = k
    · simp [RedisService.lookupRec, hp]
    · have h' : k ∈ ps.map Prod.fst := by
        rw [List.map_cons] at h
        rcases List.mem_cons.1 h with h' | h'
        · exact absurd h'.symm hp
        · exact h'
      simp only [RedisService.lookupRec, hp, if_neg, ite_false]
      exact ih h'

/-- Deleting an id the backend does not hold returns the NotFound
sentinel on either backend. -/
theorem deleteTodo_none {st : Store} {j : Nat}
    (h : TodoService.getTodoById st j = none) :
    (TodoService.deleteTodo st j).1 = none := by
  cases st with
  | redis s =>
    have h' : RedisService.getTodoById s j = none := h
    show (RedisService.deleteTodo s j).1 = none
    simp [RedisService.deleteTodo, h']
  | mem l =>
    have h' : (l.find? fun t => t.id == j) = none := h
    show (TodoService.memDelete l j).1 = none
    rw [TodoService.memDelete_of_find?, h']

/-- What `updateTodo` returns for an existing Item, on either backend:
exactly the old Item with the supplied fields replaced and `updatedAt`
stamped. -/
theorem updateTodo_fst_spec {st : Store} {id : Nat} {t : Todo} (u : Upd) (now : Nat)
    (h : TodoService.getTodoById st id = some t) :
    (TodoService.updateTodo st id u now).1 =
      some ⟨t.id, u.text.getD t.text, u.completed.getD t.completed,
            t.createdAt, some now⟩ := by
  cases st with
  | mem l =>
    have h' : (l.find? fun x => x.id == id) = some t := h
    show (TodoService.memUpdate l id u now).1 = _
    rw [TodoService.memUpdate_of_find? u now h']
  | redis s =>
    have h' : (RedisService.lookupRec s.records id).map RedisService.mkView = some t := h
    rcases Option.map_eq_some'.1 h' with ⟨r, hr, hview⟩
    show (RedisService.updateTodo s id u now).1 = _
    simp only [RedisService.updateTodo, hr, RedisService.getTodoById,
      RedisService.lookupRec_setRec_self, Option.map_some']
    subst hview
    simp only [RedisService.mkView, Option.some.injEq]
    cases hc : u.completed with
    | none => simp [Option.getD]
    | some b => simp [Option.getD, toString_beq_true]

/-- Re-reading the updated id immediately after `updateTodo` observes
exactly what `updateTodo` returned, on either backend. -/
theorem getTodoById_updateTodo (st : Store) (id : Nat) (u : Upd) (now : Nat) :
    TodoService.getTodoById (TodoService.updateTodo st id u now).2 id =
      (TodoService.updateTodo st id u now).1 := by
  cases st with
  | mem l => exact TodoService.memUpdate_find? l id u now
  | redis s =>
    show RedisService.getTodoById (RedisService.updateTodo s id u now).2 id =
      (RedisService.updateTodo s id u now).1
    cases hr : RedisService.lookupRec s.records id with
    | none => simp [RedisService.updateTodo, hr, RedisService.getTodoById]
    | some r => simp [RedisService.updateTodo, hr]

/-- Sorting three Items with strictly increasing timestamps reverses
them. -/
theorem sortByCreatedDesc_three {A B C : Todo}
    (h1 : A.createdAt < B.createdAt) (h2 : B.createdAt < C.createdAt) :
    sortByCreatedDesc [A, B, C] = [C, B, A] := by
  have hCB : ¬ (C.createdAt ≤ B.createdAt) := by omega
  have hCA : ¬ (C.createdAt ≤ A.createdAt) := by omega
  have hBA : ¬ (B.createdAt ≤ A.createdAt) := by omega
  simp [sortByCreatedDesc, insertDesc, hCB, hCA, hBA]

/-! ## The claims -/

/-- C8: for any sequence of create/update/delete operations on either
backend, `stats()` computed from the live dataset satisfies
`completed + pending = total` — proved for every backend state, hence
after every operation of every sequence. -/
theorem stats_consistent (st : Store) :
    (TodoService.getStats st).completed + (TodoService.getStats st).pending =
      (TodoService.getStats st).total := by
  cases st with
  | redis s => exact length_filter_add_length_filter_not _ _
  | mem l => exact length_filter_add_length_filter_not _ _

/-- C3: on every reachable state of either backend, every Item in the
`list()` result is returned by `get` at its own id (on the durable
backend, an index entry without a backing record was already silently
excluded from `list()`). -/
theorem list_get_consistent (b : Bool) (t0 : Nat) (ops : List Op) (item : Todo)
    (h : item ∈ (TodoService.getAllTodos (runOps (boot b t0) ops).store).1) :
    TodoService.getTodoById
      (TodoService.getAllTodos (runOps (boot b t0) ops).store).2 item.id = some item := by
  obtain ⟨hwf, -⟩ := sysInv_runOps (sysInv_boot b t0) ops
  cases hst : (runOps (boot b t0) ops).store with
  | redis s =>
    rw [hst] at h hwf
    have hwfr : (∀ p ∈ s.records, (Prod.snd p).rid = p.1) ∧
        (s.records.map Prod.fst).Nodup ∧ s.index.Nodup := hwf
    have h' : item ∈ RedisService.getAllTodos s := h
    show RedisService.getTodoById s item.id = some item
    exact RedisService.getAllTodos_getTodoById hwfr.1 h'
  | mem l =>
    rw [hst] at h hwf
    have hn : (l.map (·.id)).Nodup := hwf
    have h' : item ∈ sortByCreatedDesc l := h
    show ((sortByCreatedDesc l).find? fun t => t.id == item.id) = some item
    exact TodoService.find?_id_of_mem
      (((sortByCreatedDesc_perm l).map (·.id)).nodup_iff.2 hn) h'

/-- Witness for C3: the welcome Item of the freshly booted volatile
service is listed and read back at its id. -/
theorem list_get_consistent_witness :
    (⟨0, "Welcome to your DevOps To-Do App!", false, 0, none⟩ : Todo) ∈
        (TodoService.getAllTodos (runOps (boot false 0) []).store).1 ∧
      TodoService.getTodoById
        (TodoService.getAllTodos (runOps (boot false 0) []).store).2 0 =
        some ⟨0, "Welcome to your DevOps To-Do App!", false, 0, none⟩ :=
  ⟨by decide,
   list_get_consistent false 0 []
     ⟨0, "Welcome to your DevOps To-Do App!", false, 0, none⟩ (by decide)⟩

/-- C9: ids are unique for the dataset's lifetime: every reachable state
of either backend has pairwise-distinct Item ids; every id the backend
holds at any prefix of the run is below the uuid generator's counter at
that point; and the counter never decreases along the run — so an id
removed during the prefix can never equal an id generated afterwards. -/
theorem ids_unique_never_reused (b : Bool) (t0 : Nat) (pre suf : List Op) :
    (datasetIds (runOps (boot b t0) (pre ++ suf)).store).Nodup ∧
    (∀ i ∈ idsOf (runOps (boot b t0) pre).store,
        i < (runOps (boot b t0) pre).nextId) ∧
    (runOps (boot b t0) pre).nextId ≤ (runOps (boot b t0) (pre ++ suf)).nextId := by
  obtain ⟨hwf, -⟩ := sysInv_runOps (sysInv_boot b t0) (pre ++ suf)
  obtain ⟨-, hboundp⟩ := sysInv_runOps (sysInv_boot b t0) pre
  refine ⟨storeWF_datasetIds_nodup hwf, hboundp, ?_⟩
  rw [runOps_append]
  exact nextId_le_runOps _ suf

/-- C5: `update(id, partial)` applies exactly the fields present in the
partial on either backend: a field that is absent keeps its old value,
`id` and `createdAt` are untouched, `updatedAt` is stamped. -/
theorem update_partiality (st : Store) (id now : Nat) (u : Upd) (t : Todo)
    (h : TodoService.getTodoById st id = some t) :
    (TodoService.updateTodo st id u now).1 =
      some ⟨t.id, u.text.getD t.text, u.completed.getD t.completed,
            t.createdAt, some now⟩ :=
  updateTodo_fst_spec u now h

/-- Witness for C5: an Item with text "A" updated with only
`{completed: true}` keeps text "A". -/
theorem update_partiality_witness :
    TodoService.getTodoById (Store.mem [⟨0, "A", false, 5, none⟩]) 0 =
        some ⟨0, "A", false, 5, none⟩ ∧
      (TodoService.updateTodo (Store.mem [⟨0, "A", false, 5, none⟩]) 0
          ⟨none, some true⟩ 9).1 =
        some ⟨0, "A", true, 5, some 9⟩ :=
  ⟨by decide,
   update_partiality (Store.mem [⟨0, "A", false, 5, none⟩]) 0 9 ⟨none, some true⟩
     ⟨0, "A", false, 5, none⟩ (by decide)⟩

/-- C10: neither the PUT handler nor the storage core validates text on
update: for every existing id and every string `s` — the empty string
included — `update(id, {text: s})` succeeds, returns the Item with text
`s`, and a subsequent `get` reads `s` back. -/
theorem update_no_text_validation (sys : Sys) (id now : Nat) (s : String) (t : Todo)
    (h : TodoService.getTodoById sys.store id = some t) :
    (putTodo sys id ⟨some s, none⟩ now).1 =
        some ⟨t.id, s, t.completed, t.createdAt, some now⟩ ∧
      TodoService.getTodoById (putTodo sys id ⟨some s, none⟩ now).2.store id =
        some ⟨t.id, s, t.completed, t.createdAt, some now⟩ := by
  have h1 := updateTodo_fst_spec ⟨some s, none⟩ now h
  constructor
  · show (TodoService.updateTodo sys.store id ⟨some s, none⟩ now).1 = _
    exact h1
  · show TodoService.getTodoById
      (TodoService.updateTodo sys.store id ⟨some s, none⟩ now).2 id = _
    rw [getTodoById_updateTodo]
    exact h1

/-- Witness for C10: updating an existing Item with the empty string
stores and returns the empty text. -/
theorem update_no_text_validation_witness :
    TodoService.getTodoById (Store.mem [⟨0, "A", false, 5, none⟩]) 0 =
        some ⟨0, "A", false, 5, none⟩ ∧
      (putTodo ⟨Store.mem [⟨0, "A", false, 5, none⟩], 1⟩ 0 ⟨some "", none⟩ 9).1 =
        some ⟨0, "", false, 5, some 9⟩ :=
  ⟨by decide,
   (update_no_text_validation ⟨Store.mem [⟨0, "A", false, 5, none⟩], 1⟩ 0 9 ""
     ⟨0, "A", false, 5, none⟩ (by decide)).1⟩

/-- C4: delete idempotence on every reachable state of either backend:
the first `delete(id)` of a present Item returns the pre-deletion
snapshot and removes both the record and the index entry; the second
returns the NotFound sentinel; and `delete` of an id the backend never
held also returns the sentinel. -/
theorem delete_idempotent (b : Bool) (t0 : Nat) (ops : List Op) (id : Nat) (t : Todo)
    (h : TodoService.getTodoById (runOps (boot b t0) ops).store id = some t) :
    (TodoService.deleteTodo (runOps (boot b t0) ops).store id).1 = some t ∧
    id ∉ idsOf (TodoService.deleteTodo (runOps (boot b t0) ops).store id).2 ∧
    (TodoService.deleteTodo
        (TodoService.deleteTodo (runOps (boot b t0) ops).store id).2 id).1 = none ∧
    ∀ j, TodoService.getTodoById (runOps (boot b t0) ops).store j = none →
      (TodoService.deleteTodo (runOps (boot b t0) ops).store j).1 = none := by
  obtain ⟨hwf, -⟩ := sysInv_runOps (sysInv_boot b t0) ops
  cases hst : (runOps (boot b t0) ops).store with
  | redis s =>
    rw [hst] at h hwf
    have hwfr : (∀ p ∈ s.records, (Prod.snd p).rid = p.1) ∧
        (s.records.map Prod.fst).Nodup ∧ s.index.Nodup := hwf
    have h' : RedisService.getTodoById s id = some t := h
    have hdel : RedisService.deleteTodo s id =
        (some t, ⟨s.index.filter (· ≠ id), RedisService.eraseRec s.records id⟩) := by
      simp [RedisService.deleteTodo, h']
    refine ⟨?_, ?_, ?_, fun j hj => deleteTodo_none hj⟩
    · show (RedisService.deleteTodo s id).1 = some t
      rw [hdel]
    · show id ∉ idsOf (Store.redis (RedisService.deleteTodo s id).2)
      rw [hdel]
      intro hc
      rcases List.mem_append.1 hc with hc | hc
      · rcases List.mem_filter.1 hc with ⟨-, hne⟩
        simp at hne
      · exact RedisService.lookupRec_ne_none hc
          (RedisService.lookupRec_eraseRec_self id hwfr.2.1)
    · refine deleteTodo_none ?_
      show RedisService.getTodoById (RedisService.deleteTodo s id).2 id = none
      rw [hdel]
      show (RedisService.lookupRec (RedisService.eraseRec s.records id) id).map _ = none
      rw [RedisService.lookupRec_eraseRec_self id hwfr.2.1]
      rfl
  | mem l =>
    rw [hst] at h hwf
    have hn : (l.map (·.id)).Nodup := hwf
    have h' : (l.find? fun x => x.id == id) = some t := h
    refine ⟨?_, ?_, ?_, fun j hj => deleteTodo_none hj⟩
    · show (TodoService.memDelete l id).1 = some t
      rw [TodoService.memDelete_of_find?, h']
    · show id ∉ (TodoService.memDelete l id).2.map (·.id)
      exact TodoService.memDelete_ids_not_mem id hn
    · refine deleteTodo_none ?_
      show ((TodoService.memDelete l id).2.find? fun x => x.id == id) = none
      exact TodoService.find?_id_eq_none (TodoService.memDelete_ids_not_mem id hn)

/-- Witness for C4: deleting the welcome Item of the freshly booted
volatile service returns it. -/
theorem delete_idempotent_witness :
    TodoService.getTodoById (runOps (boot false 0) []).store 0 =
        some ⟨0, "Welcome to your DevOps To-Do App!", false, 0, none⟩ ∧
      (TodoService.deleteTodo (runOps (boot false 0) []).store 0).1 =
        some ⟨0, "Welcome to your DevOps To-Do App!", false, 0, none⟩ :=
  ⟨by decide,
   (delete_idempotent false 0 [] 0
     ⟨0, "Welcome to your DevOps To-Do App!", false, 0, none⟩ (by decide)).1⟩

/-- C6: creating an Item with non-empty text `T` (as the POST handler
builds it: `completed` false, fresh id, `createdAt` stamped) and reading
its id back yields text `T`, `completed = false` and the creation
timestamp, on either backend. -/
theorem create_get_roundtrip (l : List Todo) (s : RedisService.RedisState)
    (T : String) (id t0 : Nat) (hT : T ≠ "") (hl : id ∉ l.map (·.id)) :
    TodoService.getTodoById
        (TodoService.createTodo (Store.mem l) ⟨id, T, false, t0, none⟩).2 id =
      some ⟨id, T, false, t0, none⟩ ∧
    ((RedisService.getTodoById
        (RedisService.createTodo s ⟨id, T, false, t0, none⟩).2 id).map
          fun x => (x.text, x.completed, x.createdAt)) = some (T, false, t0) := by
  constructor
  · show ((l ++ [(⟨id, T, false, t0, none⟩ : Todo)]).find? fun x => x.id == id) =
      some (⟨id, T, false, t0, none⟩ : Todo)
    exact TodoService.find?_append_fresh (t := ⟨id, T, false, t0, none⟩) hl
  · simp only [RedisService.createTodo, RedisService.getTodoById,
      RedisService.lookupRec_setRec_self, Option.map_some']
    simp [RedisService.mkView, toString_beq_true]

/-- Witness for C6. -/
theorem create_get_roundtrip_witness :
    (("hello" : String) ≠ "" ∧ (5 : Nat) ∉ ([] : List Todo).map (·.id)) ∧
      TodoService.getTodoById
          (TodoService.createTodo (Store.mem []) ⟨5, "hello", false, 7, none⟩).2 5 =
        some ⟨5, "hello", false, 7, none⟩ :=
  ⟨⟨by decide, by decide⟩,
   (create_get_roundtrip [] ⟨[], []⟩ "hello" 5 7 (by decide) (by decide)).1⟩

/-- C7: creating Items A, B, C with strictly increasing `createdAt` into
an empty store yields `list() = [C, B, A]` on both backends (the durable
one returning its read views, whose `updatedAt` echoes `createdAt`); and
on every state of either backend `list()` is sorted by `createdAt`
descending, re-derived on every read. -/
theorem listing_order (A B C : Todo)
    (h1 : A.createdAt < B.createdAt) (h2 : B.createdAt < C.createdAt)
    (hAB : A.id ≠ B.id) (hAC : A.id ≠ C.id) (hBC : B.id ≠ C.id) :
    (TodoService.getAllTodos
        (TodoService.createTodo (TodoService.createTodo
          (TodoService.createTodo (Store.mem []) A).2 B).2 C).2).1 = [C, B, A] ∧
    (TodoService.getAllTodos
        (TodoService.createTodo (TodoService.createTodo
          (TodoService.createTodo (Store.redis ⟨[], []⟩) A).2 B).2 C).2).1 =
      [⟨C.id, C.text, C.completed, C.createdAt, some C.createdAt⟩,
       ⟨B.id, B.text, B.completed, B.createdAt, some B.createdAt⟩,
       ⟨A.id, A.text, A.completed, A.createdAt, some A.createdAt⟩] ∧
    ∀ st : Store,
      ((TodoService.getAllTodos st).1).Pairwise fun a b => b.createdAt ≤ a.createdAt := by
  refine ⟨?_, ?_, ?_⟩
  · show sortByCreatedDesc [A, B, C] = [C, B, A]
    exact sortByCreatedDesc_three h1 h2
  · have hst : (TodoService.createTodo (TodoService.createTodo
          (TodoService.createTodo (Store.redis ⟨[], []⟩) A).2 B).2 C).2 =
        Store.redis ⟨[A.id, B.id, C.id],
          [(A.id, ⟨A.id, A.text, toString A.completed, A.createdAt, none⟩),
           (B.id, ⟨B.id, B.text, toString B.completed, B.createdAt, none⟩),
           (C.id, ⟨C.id, C.text, toString C.completed, C.createdAt, none⟩)]⟩ := by
      simp [TodoService.createTodo, RedisService.createTodo, RedisService.lookupRec,
        RedisService.setRec, hAB, hAC, hBC, Ne.symm hAB, Ne.symm hAC, Ne.symm hBC]
    rw [hst]
    show RedisService.getAllTodos _ = _
    rw [RedisService.getAllTodos]
    have hfm : ([A.id, B.id, C.id].filterMap fun k =>
        (RedisService.lookupRec
          [(A.id, ⟨A.id, A.text, toString A.completed, A.createdAt, none⟩),
           (B.id, ⟨B.id, B.text, toString B.completed, B.createdAt, none⟩),
           (C.id, ⟨C.id, C.text, toString C.completed, C.createdAt, none⟩)] k).map
          RedisService.mkView) =
        [⟨A.id, A.text, A.completed, A.createdAt, some A.createdAt⟩,
         ⟨B.id, B.text, B.completed, B.createdAt, some B.createdAt⟩,
         ⟨C.id, C.text, C.completed, C.createdAt, some C.createdAt⟩] := by
      simp [RedisService.lookupRec, RedisService.mkView, hAB, hAC, hBC,
        Ne.symm hAB, Ne.symm hAC, Ne.symm hBC, toString_beq_true]
    rw [hfm]
    exact sortByCreatedDesc_three h1 h2
  · intro st
    cases st with
    | redis s =>
      show (sortByCreatedDesc _).Pairwise _
      exact pairwise_sortByCreatedDesc _
    | mem l =>
      show (sortByCreatedDesc l).Pairwise _
      exact pairwise_sortByCreatedDesc _

/-- Witness for C7 with three concrete Items. -/
theorem listing_order_witness :
    (TodoService.getAllTodos
        (TodoService.createTodo (TodoService.createTodo
          (TodoService.createTodo (Store.mem []) ⟨0, "a", false, 1, none⟩).2
            ⟨1, "b", false, 2, none⟩).2 ⟨2, "c", true, 3, none⟩).2).1 =
      [⟨2, "c", true, 3, none⟩, ⟨1, "b", false, 2, none⟩, ⟨0, "a", false, 1, none⟩] :=
  (listing_order ⟨0, "a", false, 1, none⟩ ⟨1, "b", false, 2, none⟩
    ⟨2, "c", true, 3, none⟩ (by decide) (by decide) (by decide) (by decide)
    (by decide)).1

/-- C1, counterexample: a freshly booted Volatile-active service does
NOT list the same seeded default Items a fresh DurableStore first-run
seeding produces — the texts differ (the durable seeds carry the
"with Redis" wording). -/
theorem seeded_defaults_texts_differ :
    ((TodoService.getAllTodos (bootVolatile 0).store).1).map (·.text) ≠
      (RedisService.getAllTodos
        ((RedisService.seedDefaultTodos ⟨[], []⟩ 0 0).1)).map (·.text) := by
  decide

/-- C1, amended: a Volatile-active service booted after a failed durable
connection lists two seeded Items agreeing with a fresh DurableStore's
first-run seeds in count and in the multiset of `completed` values (one
pending, one completed), but with different texts (plain versus the
"with Redis" variants) — so the listed datasets are never identical.
This holds for every per-seed timestamp assignment (`tv0`/`tv1` and
`td0`/`td1`: one `new Date()` per seed) and for every enumeration order
`idx` of the durable backend's seeded id set (`SMEMBERS` order being
unspecified); no particular listing order is asserted. -/
theorem fallback_seeding_amended (g gv tv0 tv1 td0 td1 : Nat) (idx : List Nat)
    (hidx : List.Perm idx
      ((RedisService.seedDefaultTodosAt ⟨[], []⟩ g td0 td1).1).index) :
    ((TodoService.getAllTodos (Store.mem (inMemoryTodosAt gv tv0 tv1))).1).length = 2 ∧
    (RedisService.getAllTodos
        ⟨idx, ((RedisService.seedDefaultTodosAt ⟨[], []⟩ g td0 td1).1).records⟩).length
      = 2 ∧
    List.Perm
      (((TodoService.getAllTodos (Store.mem (inMemoryTodosAt gv tv0 tv1))).1).map
        (·.completed))
      ((RedisService.getAllTodos
          ⟨idx, ((RedisService.seedDefaultTodosAt ⟨[], []⟩ g td0 td1).1).records⟩).map
        (·.completed)) ∧
    List.Perm
      (((TodoService.getAllTodos (Store.mem (inMemoryTodosAt gv tv0 tv1))).1).map
        (·.text))
      ["Welcome to your DevOps To-Do App!", "Set up CI/CD pipeline"] ∧
    List.Perm
      ((RedisService.getAllTodos
          ⟨idx, ((RedisService.seedDefaultTodosAt ⟨[], []⟩ g td0 td1).1).records⟩).map
        (·.text))
      ["Welcome to your DevOps To-Do App with Redis!",
       "Set up CI/CD pipeline with Redis database"] ∧
    ((TodoService.getAllTodos (Store.mem (inMemoryTodosAt gv tv0 tv1))).1).map (·.text)
      ≠ (RedisService.getAllTodos
          ⟨idx, ((RedisService.seedDefaultTodosAt ⟨[], []⟩ g td0 td1).1).records⟩).map
          (·.text) := by
  rw [seedDefaultTodosAt_empty] at hidx ⊢
  have hidx' : idx = [g, g + 1] ∨ idx = [g + 1, g] := perm_pair hidx
  have hgn : g ≠ g + 1 := by omega
  have hgn' : g + 1 ≠ g := by omega
  rcases hidx' with rfl | rfl
  · by_cases hv : tv1 ≤ tv0 <;> by_cases hd : td1 ≤ td0 <;>
      refine ⟨?_, ?_, ?_, ?_, ?_, ?_⟩ <;>
      simp [TodoService.getAllTodos, RedisService.getAllTodos, RedisService.lookupRec,
        RedisService.mkView, inMemoryTodosAt, sortByCreatedDesc, insertDesc,
        hv, hd, hgn, hgn'] <;>
      decide
  · by_cases hv : tv1 ≤ tv0 <;> by_cases hd : td0 ≤ td1 <;>
      refine ⟨?_, ?_, ?_, ?_, ?_, ?_⟩ <;>
      simp [TodoService.getAllTodos, RedisService.getAllTodos, RedisService.lookupRec,
        RedisService.mkView, inMemoryTodosAt, sortByCreatedDesc, insertDesc,
        hv, hd, hgn, hgn'] <;>
      decide

/-- Witness for C1's amended theorem, at a reversed durable enumeration
and strictly increasing per-seed timestamps. -/
theorem fallback_seeding_amended_witness :
    List.Perm [3, 2] ((RedisService.seedDefaultTodosAt ⟨[], []⟩ 2 5 6).1).index ∧
    ((TodoService.getAllTodos (Store.mem (inMemoryTodosAt 0 0 1))).1).map (·.text)
      ≠ (RedisService.getAllTodos
          ⟨[3, 2], ((RedisService.seedDefaultTodosAt ⟨[], []⟩ 2 5 6).1).records⟩).map
          (·.text) :=
  ⟨by decide, (fallback_seeding_amended 2 0 0 1 5 6 [3, 2] (by decide)).2.2.2.2.2⟩

/-- C2, counterexample: the first seeded Item of the freshly connected
durable backend has never been updated, yet `get` returns it with
`updatedAt` present (equal to `createdAt`), because the read path
substitutes `createdAt` for the missing field. -/
theorem durable_get_fills_updatedAt :
    TodoService.getTodoById (boot true 0).store 2 =
        some ⟨2, "Welcome to your DevOps To-Do App with Redis!", false, 0, some 0⟩ ∧
      ((TodoService.getTodoById (boot true 0).store 2).map (·.updatedAt)) ≠
        some none := by
  refine ⟨by decide, by decide⟩

/-- C2, amended: `updatedAt` is absent from the volatile backend's Items
and from the durable backend's stored record until the first update, and
`create` returns its input with no `updatedAt` on either backend; but
the durable read path substitutes `createdAt` for a missing `updatedAt`,
so an Item read back from the durable store before any update carries
`updatedAt = createdAt`; after an update, the Item returned carries the
update's timestamp on either backend. -/
theorem updatedAt_lifecycle (st : Store) (l : List Todo)
    (s : RedisService.RedisState) (t t₀ : Todo) (id now : Nat) (u : Upd)
    (hmem : t.id ∉ l.map (·.id)) (hkey : t.id ∉ s.records.map Prod.fst)
    (hget : TodoService.getTodoById st id = some t₀) :
    (TodoService.createTodo st t).1 = t ∧
    TodoService.getTodoById (TodoService.createTodo (Store.mem l) t).2 t.id = some t ∧
    RedisService.lookupRec ((RedisService.createTodo s t).2).records t.id =
        some ⟨t.id, t.text, toString t.completed, t.createdAt, none⟩ ∧
    RedisService.getTodoById (RedisService.createTodo s t).2 t.id =
        some ⟨t.id, t.text, t.completed, t.createdAt, some t.createdAt⟩ ∧
    ((TodoService.updateTodo st id u now).1).map (·.updatedAt) = some (some now) := by
  refine ⟨?_, ?_, ?_, ?_, ?_⟩
  · cases st with
    | redis s' => rfl
    | mem l' => rfl
  · show ((l ++ [t]).find? fun x => x.id == t.id) = some t
    exact TodoService.find?_append_fresh hmem
  · simp only [RedisService.createTodo]
    rw [RedisService.lookupRec_setRec_self,
      RedisService.lookupRec_eq_none s.records t.id hkey]
    simp
  · simp only [RedisService.createTodo, RedisService.getTodoById]
    rw [RedisService.lookupRec_setRec_self,
      RedisService.lookupRec_eq_none s.records t.id hkey]
    simp [RedisService.mkView, toString_beq_true]
  · rw [updateTodo_fst_spec u now hget]
    rfl

/-- Witness for C2's amended theorem. -/
theorem updatedAt_lifecycle_witness :
    TodoService.getTodoById
        (TodoService.createTodo (Store.mem []) ⟨5, "x", true, 7, none⟩).2 5 =
      some ⟨5, "x", true, 7, none⟩ ∧
    RedisService.getTodoById
        (RedisService.createTodo ⟨[], []⟩ ⟨5, "x", true, 7, none⟩).2 5 =
      some ⟨5, "x", true, 7, some 7⟩ :=
  ⟨(updatedAt_lifecycle (Store.mem [⟨0, "A", false, 5, none⟩]) [] ⟨[], []⟩
      ⟨5, "x", true, 7, none⟩ ⟨0, "A", false, 5, none⟩ 0 9 ⟨none, none⟩
      (by decide) (by decide) (by decide)).2.1,
   (updatedAt_lifecycle (Store.mem [⟨0, "A", false, 5, none⟩]) [] ⟨[], []⟩
      ⟨5, "x", true, 7, none⟩ ⟨0, "A", false, 5, none⟩ 0 9 ⟨none, none⟩
      (by decide) (by decide) (by decide)).2.2.2.1⟩
